import Mathlib

/-!
Verification of the PLU catalog parser (src/utils/parser.rs, src/models/plu_model.rs).

Rust strings are modelled as lists of characters.  The catalog text is ASCII plus
the specific bullet, dash and superscript characters named in the spec, so the
Unicode-aware Rust character classes (digits, whitespace, lowercasing) are
modelled by their behaviour on this alphabet, as the spec's non-goals allow.
Each regular expression of the source is embedded as a function computing the
leftmost-first match with the greedy/lazy capture semantics of the regex crate;
a comment on each definition records the pattern it implements.
-/

set_option maxRecDepth 4096

namespace Plu

/-- A Rust string slice, as a list of characters. -/
abbrev Str := List Char

/-- Characters of a Lean string literal. -/
def strL (s : String) : Str := s.data

/-- The regex class \d (decimal digits) on the catalog alphabet. -/
def isDig (c : Char) : Bool := '0' ≤ c && c ≤ '9'

/-- The regex class \s and Rust char::is_whitespace on the catalog alphabet. -/
def isWs (c : Char) : Bool := c == ' ' || c == '\t' || c == '\n' || c == '\r'

/-- Leading-whitespace removal (Rust str::trim_start). -/
def lstrip (s : Str) : Str := s.dropWhile isWs

/-- Trailing-whitespace removal (Rust str::trim_end). -/
def rstrip (s : Str) : Str := (s.reverse.dropWhile isWs).reverse

/-- Rust str::trim. -/
def trimS (s : Str) : Str := rstrip (lstrip s)

/-- Turn the reversed accumulator of the line splitter into a line, stripping
one carriage return that immediately preceded the line feed. -/
def finishLine (acc : Str) : Str :=
  match acc with
  | '\r' :: acc' => acc'.reverse
  | _ => acc.reverse

/-- Helper for Rust str::lines: the accumulator holds the current line
reversed. -/
def linesGo : Str → Str → List Str
  | acc, [] => if acc.isEmpty then [] else [acc.reverse]
  | acc, c :: rest =>
      if c == '\n' then finishLine acc :: linesGo [] rest
      else linesGo (c :: acc) rest

/-- Rust str::lines. -/
def linesOf (s : Str) : List Str := linesGo [] s

/-- Rust str::contains with a string pattern (substring search). -/
def containsSub : Str → Str → Bool
  | [], pat => pat.isEmpty
  | c :: t, pat => pat.isPrefixOf (c :: t) || containsSub t pat

/-- Rust str::starts_with with a string pattern. -/
def startsW (pat s : Str) : Bool := pat.isPrefixOf s

/-- Rust str::ends_with(':'). -/
def endsColon (s : Str) : Bool :=
  match s.reverse with
  | ':' :: _ => true
  | _ => false

/-- Rust str::trim_end_matches(':'): remove every trailing colon. -/
def trimEndColons (s : Str) : Str := (s.reverse.dropWhile (fun c => c == ':')).reverse

/-- The regex class [A-Z]. -/
def isUpperAZ (c : Char) : Bool := 'A' ≤ c && c ≤ 'Z'

/-- The regex class [a-zA-Z /&'-] of re_toplevel (the quote character is
written via its code point). -/
def topClass (c : Char) : Bool :=
  ('a' ≤ c && c ≤ 'z') || ('A' ≤ c && c ≤ 'Z') || c == ' ' || c == '/' ||
    c == '&' || c == Char.ofNat 39 || c == '-'

/-- Full match of re_toplevel = ^[A-Z][a-zA-Z /&'-]+$ . -/
def reToplevel : Str → Bool
  | [] => false
  | c :: rest => isUpperAZ c && !rest.isEmpty && rest.all topClass

/-- Capture of re_item1 = ^•\s+(.*)$ applied to the raw line: the greedy \s+
takes the maximal whitespace run, the group is the remainder. -/
def reItem1 (line : Str) : Option Str :=
  match line with
  | [] => none
  | c :: rest =>
      if c == '•' then
        if (rest.takeWhile isWs).isEmpty then none else some (rest.dropWhile isWs)
      else none

/-- Capture of re_item2 = ^\s{2,}o\s+(.*)$ applied to the raw line: the maximal
leading whitespace run must have length at least two and be followed by the
letter o and at least one more whitespace character. -/
def reItem2 (line : Str) : Option Str :=
  if (line.takeWhile isWs).length < 2 then none
  else
    match line.dropWhile isWs with
    | [] => none
    | c :: rest =>
        if c == 'o' then
          if (rest.takeWhile isWs).isEmpty then none else some (rest.dropWhile isWs)
        else none

/-- The two range separators of the source: ASCII hyphen and U+2010 hyphen. -/
def isDash (c : Char) : Bool := c == '-' || c == '‐'

/-- Full match of re_range = ^\d+[-‐]\d+$ in parse_plu_codes: the greedy \d+
takes the maximal digit run, the next character must be a dash and the rest a
nonempty digit run. -/
def reRangeFull (s : Str) : Bool :=
  let d1 := s.takeWhile isDig
  if d1.isEmpty then false
  else
    match s.drop d1.length with
    | c :: rest => isDash c && !rest.isEmpty && rest.all isDig
    | [] => false

/-- Helper for find_iter of \d+: the accumulator holds the current digit run
reversed; maximal digit runs are emitted in order of appearance. -/
def digitRunsGo : Str → Str → List Str
  | cur, [] => if cur.isEmpty then [] else [cur.reverse]
  | cur, c :: rest =>
      if isDig c then digitRunsGo (c :: cur) rest
      else if cur.isEmpty then digitRunsGo [] rest
      else cur.reverse :: digitRunsGo [] rest

/-- All maximal decimal digit runs of a string, in scan order
(re_extract_all_numbers = \d+ with find_iter). -/
def digitRuns (s : Str) : List Str := digitRunsGo [] s

/-- Decimal value of a digit string. -/
def digitsVal (s : Str) : Nat := s.foldl (fun a c => a * 10 + (c.toNat - 48)) 0

/-- Rust str::parse::<u32> on the digit strings produced by the scan (the call
sites only pass nonempty decimal digit runs, so no sign handling is needed);
fails on overflow past 2^32 - 1. -/
def parseU32 (s : Str) : Option Nat :=
  if s.isEmpty then none
  else if s.all isDig then
    if digitsVal s < 4294967296 then some (digitsVal s) else none
  else none

/-- The character set stripped by trim_matches in parse_plu_codes. -/
def isParen (c : Char) : Bool := c == '(' || c == ')'

/-- Rust trim_matches(|c| c == '(' or c == ')'): strip parens from both ends. -/
def trimParens (s : Str) : Str := ((s.dropWhile isParen).reverse.dropWhile isParen).reverse

/-- The known truncatable five-digit code heads hard-coded in parse_plu_codes. -/
def truncPfx (n : Str) : Bool :=
  startsW (strL "4136") n || startsW (strL "4137") n || startsW (strL "3392") n

/-- The code-collecting loop of parse_plu_codes: the boolean is the skip_next
flag; a five-digit run with a truncatable head is cut to its first four digits
and, when a following run exists, arms the flag so that run is dropped. -/
def skGo : Bool → List Str → List Nat
  | _, [] => []
  | true, _ :: rest => skGo false rest
  | false, n :: rest =>
      let t : Str × Bool :=
        if n.length == 5 && truncPfx n then (n.take 4, !rest.isEmpty) else (n, false)
      match parseU32 t.1 with
      | some v => v :: skGo t.2 rest
      | none => skGo t.2 rest

/-- parse_plu_codes of the source: strip parens, drop empty content and
footnoted ranges, then collect the digit runs through the skip loop. -/
def parse_plu_codes (text : Str) : List Nat :=
  let inner := trimParens text
  if inner.isEmpty then []
  else if reRangeFull inner then []
  else skGo false (digitRuns inner)

/-- Split a string at its first closing bracket (none when there is none). -/
def innerSplit : Str → Option (Str × Str)
  | [] => none
  | ']' :: t => some ([], t)
  | c :: t =>
      match innerSplit t with
      | some (a, b) => some (c :: a, b)
      | none => none

/-- Match of the lazy tail (.+?)\](.*) after an opening bracket: at least one
character, then the first closing bracket. -/
def bracketTail (t : Str) : Option (Str × Str) :=
  match t with
  | [] => none
  | c :: rest =>
      match innerSplit rest with
      | some (a, b) => some (c :: a, b)
      | none => none

/-- Helper for re_chars: scan left to right, remembering the split at the last
opening bracket whose tail matches (the greedy first group picks the last). -/
def charsGo : Str → Str → Option (Str × Str × Str) → Option (Str × Str × Str)
  | _, [], best => best
  | revPre, c :: t, best =>
      if c == '[' then
        match bracketTail t with
        | some (mid, post) => charsGo (c :: revPre) t (some (revPre.reverse, mid, post))
        | none => charsGo (c :: revPre) t best
      else charsGo (c :: revPre) t best

/-- Captures of re_chars = ^(.*)\[(.+?)\](.*)$ . -/
def charsSplit (s : Str) : Option (Str × Str × Str) := charsGo [] s none

/-- Split on commas (Rust str::split(',')), never returning an empty list. -/
def splitComma : Str → Str → List Str
  | acc, [] => [acc.reverse]
  | acc, ',' :: t => acc.reverse :: splitComma [] t
  | acc, c :: t => splitComma (c :: acc) t

/-- extract_characteristics of the source: remove a bracketed segment, return
the trimmed concatenation of the outer parts and the comma-split trimmed
contents. -/
def extract_characteristics (text : Str) : Str × List Str :=
  match charsSplit text with
  | some (g1, g2, g3) => (trimS (g1 ++ g3), (splitComma [] g2).map trimS)
  | none => (text, [])

/-- The complement of the class [^,(]. -/
def notCP (c : Char) : Bool := !(c == ',' || c == '(')

/-- Tail match \s*([^,(]+)(.*)$ after a slash, following the engine's greedy
behaviour: the whitespace run is absorbed greedily; when the next character is
excluded from the class (or the string ends) the engine backs off one
whitespace character, which then forms the whole second group. -/
def altTail (t : Str) : Option (Str × Str) :=
  let w := t.takeWhile isWs
  let t' := t.dropWhile isWs
  match t' with
  | c :: _ =>
      if c == ',' || c == '(' then
        match w.getLast? with
        | some cw => some ([cw], t')
        | none => none
      else some (t'.takeWhile notCP, t'.dropWhile notCP)
  | [] =>
      match w.getLast? with
      | some cw => some ([cw], [])
      | none => none

/-- Helper for re_alt: the lazy first group selects the first slash whose right
side admits a match; the \s* before the slash takes the whitespace run
immediately preceding it out of the first group. -/
def altGo : Str → Str → Option (Str × Str × Str)
  | _, [] => none
  | revPre, c :: t =>
      if c == '/' then
        match altTail t with
        | some (g2, g3) => some (rstrip revPre.reverse, g2, g3)
        | none => altGo (c :: revPre) t
      else altGo (c :: revPre) t

/-- Captures of re_alt = ^(.*?)\s*/\s*([^,(]+)(.*)$ . -/
def altSplit (s : Str) : Option (Str × Str × Str) := altGo [] s

/-- extract_alternative_name of the source. -/
def extract_alternative_name (text : Str) : Str × Option Str :=
  match altSplit text with
  | some (g1, g2, g3) => (trimS (trimS g1 ++ trimS g3), some (trimS g2))
  | none => (text, none)

/-- normalize_size of the source (Rust to_lowercase modelled on the ASCII
letters actually reaching it). -/
def normalize_size (s : Str) : Str :=
  let l := (trimS s).map Char.toLower
  if l == strL "small" then strL "small"
  else if l == strL "medium" then strL "medium"
  else if l == strL "large" then strL "large"
  else if l == strL "extra large" then strL "extra large"
  else if l == strL "jumbo" then strL "jumbo"
  else trimS s

/-- Match one literal alternative at the start of the input. -/
def tryLit (lit : String) (s : Str) : Option (Str × Str) :=
  if (strL lit).isPrefixOf s then some (strL lit, s.drop (strL lit).length) else none

/-- The size alternation (small|medium|large|extra large|jumbo) matched at the
start of the input, in the written order; the five branches begin with distinct
letters, so at most one can match at a given position. -/
def sizeAlt (s : Str) : Option (Str × Str) :=
  match tryLit "small" s with
  | some r => some r
  | none =>
    match tryLit "medium" s with
    | some r => some r
    | none =>
      match tryLit "large" s with
      | some r => some r
      | none =>
        match tryLit "extra large" s with
        | some r => some r
        | none => tryLit "jumbo" s

/-- The code class [\d,\s¹²³-‐] used inside the parenthesized groups. -/
def codeClass (c : Char) : Bool :=
  isDig c || c == ',' || isWs c || c == '¹' || c == '²' || c == '³' || c == '-' || c == '‐'

/-- Tail match \s*(size)\s*\(([class]+)\) after a comma of the dual-size
pattern: all quantifiers here are forced, so the match is deterministic. -/
def grpTail (rest : Str) : Option (Str × Str × Str) :=
  match sizeAlt (rest.dropWhile isWs) with
  | none => none
  | some (sz, r2) =>
      match r2.dropWhile isWs with
      | '(' :: r4 =>
          let cs := r4.takeWhile codeClass
          if cs.isEmpty then none
          else
            match r4.drop cs.length with
            | ')' :: r5 => some (sz, cs, r5)
            | _ => none
      | _ => none

/-- Helper for re_alt_size_split: the lazy first group tries split points left
to right; a split point must sit on a comma and its deterministic tail must
consume the rest of the string. -/
def altSizeGo : Str → Str → Option (Str × Str × Str × Str × Str)
  | _, [] => none
  | revPre, c :: t =>
      if c == ',' then
        match grpTail t with
        | some (sz1, cs1, r5) =>
            match r5 with
            | ',' :: t2 =>
                match grpTail t2 with
                | some (sz2, cs2, r9) =>
                    if r9.isEmpty then some (revPre.reverse, sz1, cs1, sz2, cs2)
                    else altSizeGo (c :: revPre) t
                | none => altSizeGo (c :: revPre) t
            | _ => altSizeGo (c :: revPre) t
        | none => altSizeGo (c :: revPre) t
      else altSizeGo (c :: revPre) t

/-- Captures of re_alt_size_split (= re_size_split) =
^(.*?),\s*(small|medium|large|extra large|jumbo)\s*\(([\d,\s¹²³-‐]+)\),\s*(small|medium|large|extra large|jumbo)\s*\(([\d,\s¹²³-‐]+)\)$ . -/
def altSizeSplit (s : Str) : Option (Str × Str × Str × Str × Str) := altSizeGo [] s

/-- Captures of re_standard = ^(.*?)\s*\(([\d,\s-‐¹²³]+)\)$ : the string must
end with a closing paren, the content after the last opening paren must be a
nonempty code-class run, and the first group is the prefix with the whitespace
run before that paren absorbed by \s*. -/
def reStandard (s : Str) : Option (Str × Str) :=
  match s.reverse with
  | ')' :: revRest =>
      let revC := revRest.takeWhile (fun c => !(c == '('))
      match revRest.drop revC.length with
      | '(' :: revPre =>
          if !revC.isEmpty && revC.all codeClass then
            some (rstrip revPre.reverse, revC.reverse)
          else none
      | _ => none
  | _ => none

/-- Helper for re_size_suffix: the lazy first group tries split points left to
right; a split point must sit on a comma followed by optional whitespace and a
size word ending the string. -/
def sizeSuffixGo : Str → Str → Option (Str × Str)
  | _, [] => none
  | revPre, c :: t =>
      if c == ',' then
        match sizeAlt (t.dropWhile isWs) with
        | some (sz, rest) =>
            if rest.isEmpty then some (revPre.reverse, sz) else sizeSuffixGo (c :: revPre) t
        | none => sizeSuffixGo (c :: revPre) t
      else sizeSuffixGo (c :: revPre) t

/-- Captures of re_size_suffix = ^(.*?),\s*(small|medium|large|extra large|jumbo)$ . -/
def sizeSuffix (s : Str) : Option (Str × Str) := sizeSuffixGo [] s

/-- PluItem of src/models/plu_model.rs. -/
structure PluItem where
  name : Str
  plu_codes : List Nat
  category_path : List Str
  alternative_name : Option Str
  characteristics : List Str
  size : Option Str
deriving DecidableEq

/-- PluCollection of src/models/plu_model.rs. -/
structure PluCollection where
  items : List PluItem
deriving DecidableEq

/-- process_item_line of the source.  The Rust function pushes records into a
shared vector and returns Result<bool, String>; the mutation is modelled by
returning the list of records appended by the call.  Every return of the
source is Ok. -/
def process_item_line (content : Str) (category_path : List Str) :
    Except String (Bool × List PluItem) :=
  if containsSub content (strL "retailer assigned") then .ok (true, [])
  else
    match altSizeSplit content with
    | some (g1, sz1s, cs1s, sz2s, cs2s) =>
        let base_name_part := trimS g1
        let codes1 := parse_plu_codes cs1s
        let codes2 := parse_plu_codes cs2s
        let p1 := extract_characteristics base_name_part
        let p2 := extract_alternative_name p1.1
        let size1 := normalize_size sz1s
        let size2 := normalize_size sz2s
        let final_name1 := trimS p2.1 ++ strL ", " ++ size1
        let final_name2 := trimS p2.1 ++ strL ", " ++ size2
        let its1 : List PluItem :=
          if !codes1.isEmpty then
            [⟨final_name1, codes1, category_path,
              p2.2.map (fun a => trimS a ++ strL ", " ++ size1), p1.2, some size1⟩]
          else []
        let its2 : List PluItem :=
          if !codes2.isEmpty then
            [⟨final_name2, codes2, category_path,
              p2.2.map (fun a => trimS a ++ strL ", " ++ size2), p1.2, some size2⟩]
          else []
        .ok (true, its1 ++ its2)
    | none =>
        match reStandard content with
        | some (g1, codes_str) =>
            let codes := parse_plu_codes codes_str
            if !codes.isEmpty then
              let name_part := trimS g1
              let q1 := extract_characteristics name_part
              let q2 := extract_alternative_name q1.1
              let r : Str × Option Str :=
                match sizeSuffix q2.1 with
                | some (h1, szs) => (trimS h1, some (normalize_size szs))
                | none => (q2.1, none)
              .ok (true, [⟨r.1, codes, category_path, q2.2, q1.2, r.2⟩])
            else .ok (true, [])
        | none => .ok (false, [])

/-- The mutable locals of parse_plu_text: the output vector and the category
path (VecDeque used as a stack, back = last element). -/
structure ParseState where
  items : List PluItem
  path : List Str
deriving DecidableEq

/-- The state at the start of parse_plu_text. -/
def initState : ParseState := ⟨[], []⟩

/-- The blank/boilerplate skip test at the top of the line loop. -/
def isSkipLine (trimmed : Str) : Bool :=
  trimmed.isEmpty || startsW (strL "no listing") trimmed ||
    startsW (strL "all commodities") trimmed

/-- The top-level-category condition of the line loop. -/
def topCond (trimmed : Str) : Bool :=
  reToplevel trimmed && !(startsW (strL "•") trimmed) && !(trimmed.contains ':')

/-- One iteration of the line loop of parse_plu_text.  The while-loops popping
the path are List.take; the early continue statements keep the path mutations
already performed. -/
def stepLine (st : ParseState) (line : Str) : Except String ParseState :=
  let trimmed := trimS line
  if isSkipLine trimmed then .ok st
  else if topCond trimmed then .ok ⟨st.items, [trimmed]⟩
  else
    match reItem1 line with
    | some raw =>
        let content := trimS raw
        let path1 := st.path.take 1
        if path1.isEmpty then .ok ⟨st.items, path1⟩
        else if endsColon content then
          .ok ⟨st.items, path1 ++ [trimS (trimEndColons content)]⟩
        else
          match process_item_line content path1 with
          | .error e => .error e
          | .ok r => .ok ⟨st.items ++ r.2, path1⟩
    | none =>
        match reItem2 line with
        | some raw =>
            let content := trimS raw
            let path2 := st.path.take 2
            if !(path2.length == 2) then .ok ⟨st.items, path2⟩
            else
              match process_item_line content path2 with
              | .error e => .error e
              | .ok r => .ok ⟨st.items ++ r.2, path2⟩
        | none => .ok st

/-- The line loop of parse_plu_text, with the ? operator of the source
propagating an error result. -/
def runLines : ParseState → List Str → Except String ParseState
  | st, [] => .ok st
  | st, l :: ls =>
      match stepLine st l with
      | .error e => .error e
      | .ok st' => runLines st' ls

/-- parse_plu_text of the source. -/
def parse_plu_text (text : Str) : Except String PluCollection :=
  match runLines initState (linesOf text) with
  | .error e => .error e
  | .ok st => .ok ⟨st.items⟩

/-- The parse state after a list of lines (total because the loop never
produces an error; the default branch is unreachable). -/
def stateAfter (ls : List Str) : ParseState :=
  match runLines initState ls with
  | .ok st => st
  | .error _ => initState

/-- The records emitted while processing line k (0-based) of the input. -/
def emittedAt (ls : List Str) (k : Nat) : List PluItem :=
  (stateAfter (ls.take (k + 1))).items.drop (stateAfter (ls.take k)).items.length

/-- Whether a line is classified as a top-level category line by the loop. -/
def isTopLine (l : Str) : Bool := !isSkipLine (trimS l) && topCond (trimS l)

/-- The label of the most recent top-level category line of a line list. -/
def lastTopLabel (ls : List Str) : Option Str :=
  ls.foldl (fun acc l => if isTopLine l then some (trimS l) else acc) none

/-! ## Basic lemmas -/

theorem ne_nil_of_isEmpty_eq_false {α : Type} {l : List α} (h : l.isEmpty = false) :
    l ≠ [] := by
  cases l <;> simp_all

theorem take_succ_head? {α : Type} (n : Nat) (l : List α) :
    (l.take (n + 1)).head? = l.head? := by
  cases l <;> simp

theorem take1_length {α : Type} {l : List α} (h : l ≠ []) : (l.take 1).length = 1 := by
  cases l <;> simp_all

/-! ## process_item_line always succeeds, and only emits records carrying the
given path and a nonempty code list -/

theorem processItem_ok (content : Str) (p : List Str) :
    ∃ r, process_item_line content p = .ok r := by
  unfold process_item_line
  repeat' first
    | exact ⟨_, rfl⟩
    | split
    | dsimp only

theorem processItem_mem (content : Str) (p : List Str) (b : Bool) (new : List PluItem)
    (h : process_item_line content p = .ok (b, new)) :
    ∀ it ∈ new, it.category_path = p ∧ it.plu_codes ≠ [] := by
  intro it hit
  simp only [process_item_line] at h
  split at h
  · simp only [Except.ok.injEq, Prod.mk.injEq] at h
    rw [← h.2] at hit
    simp at hit
  · split at h
    · simp only [Except.ok.injEq, Prod.mk.injEq] at h
      rw [← h.2] at hit
      rcases List.mem_append.1 hit with hm | hm
      · split at hm
        · simp only [List.mem_singleton] at hm
          subst hm
          exact ⟨rfl, ne_nil_of_isEmpty_eq_false (by simp_all)⟩
        · simp at hm
      · split at hm
        · simp only [List.mem_singleton] at hm
          subst hm
          exact ⟨rfl, ne_nil_of_isEmpty_eq_false (by simp_all)⟩
        · simp at hm
    · split at h
      · split at h
        · simp only [Except.ok.injEq, Prod.mk.injEq] at h
          rw [← h.2] at hit
          simp only [List.mem_singleton] at hit
          subst hit
          refine ⟨rfl, ne_nil_of_isEmpty_eq_false ?_⟩
          simp_all
        · simp only [Except.ok.injEq, Prod.mk.injEq] at h
          rw [← h.2] at hit
          simp at hit
      · simp only [Except.ok.injEq, Prod.mk.injEq] at h
        rw [← h.2] at hit
        simp at hit

/-! ## The one-step specification of the line loop -/

theorem step_spec (st : ParseState) (l : Str) :
    ∃ new path', stepLine st l = .ok ⟨st.items ++ new, path'⟩ ∧
      (∀ it ∈ new, (it.category_path.length = 1 ∨ it.category_path.length = 2) ∧
        it.category_path.head? = st.path.head? ∧ it.plu_codes ≠ []) ∧
      path'.head? = (if isTopLine l then some (trimS l) else st.path.head?) := by
  obtain ⟨sitems, spath⟩ := st
  by_cases hskip : isSkipLine (trimS l) = true
  · refine ⟨[], spath, ?_, by simp, ?_⟩
    · simp [stepLine, hskip]
    · simp [isTopLine, hskip]
  · by_cases htop : topCond (trimS l) = true
    · refine ⟨[], [trimS l], ?_, by simp, ?_⟩
      · simp [stepLine, hskip, htop]
      · simp [isTopLine, hskip, htop]
    · have htopl : isTopLine l = false := by
        simp only [isTopLine, Bool.and_eq_false_iff]
        right
        simpa using htop
      cases h1 : reItem1 l with
      | some raw =>
        cases hp : spath with
        | nil =>
          refine ⟨[], [], ?_, by simp, ?_⟩
          · simp [stepLine, hskip, htop, h1]
          · simp [htopl]
        | cons a t =>
          by_cases hc : endsColon (trimS raw) = true
          · refine ⟨[], [a] ++ [trimS (trimEndColons (trimS raw))], ?_, by simp, ?_⟩
            · simp [stepLine, hskip, htop, h1, hc]
            · simp [htopl]
          · obtain ⟨⟨b, new⟩, hres⟩ := processItem_ok (trimS raw) [a]
            refine ⟨new, [a], ?_, ?_, ?_⟩
            · simp [stepLine, hskip, htop, h1, hc, hres]
            · intro it hit
              have hm := processItem_mem _ _ _ _ hres it hit
              exact ⟨Or.inl (by simp [hm.1]), by simp [hm.1], hm.2⟩
            · simp [htopl]
      | none =>
        cases h2 : reItem2 l with
        | some raw =>
          by_cases hlen : (spath.take 2).length = 2
          · obtain ⟨⟨b, new⟩, hres⟩ := processItem_ok (trimS raw) (spath.take 2)
            refine ⟨new, spath.take 2, ?_, ?_, ?_⟩
            · simp [stepLine, hskip, htop, h1, h2, hlen, hres]
            · intro it hit
              have hm := processItem_mem _ _ _ _ hres it hit
              refine ⟨Or.inr ?_, ?_, hm.2⟩
              · rw [hm.1]
                exact hlen
              · rw [hm.1]
                exact take_succ_head? 1 spath
            · simpa [htopl] using take_succ_head? 1 spath
          · refine ⟨[], spath.take 2, ?_, by simp, ?_⟩
            · simp [stepLine, hskip, htop, h1, h2, hlen]
              intro hge
              exact absurd (by rw [List.length_take]; exact Nat.min_eq_left hge) hlen
            · simpa [htopl] using take_succ_head? 1 spath
        | none =>
          refine ⟨[], spath, ?_, by simp, ?_⟩
          · simp [stepLine, hskip, htop, h1, h2]
          · simp [htopl]

/-! ## The line loop: totality, code invariant, head tracking -/

theorem runLines_ok (ls : List Str) : ∀ st, ∃ st', runLines st ls = .ok st' := by
  induction ls with
  | nil => exact fun st => ⟨st, rfl⟩
  | cons l ls ih =>
    intro st
    obtain ⟨new, path', heq, -, -⟩ := step_spec st l
    obtain ⟨st', h'⟩ := ih ⟨st.items ++ new, path'⟩
    exact ⟨st', by simp [runLines, heq, h']⟩

theorem runLines_codes (ls : List Str) : ∀ st st', runLines st ls = .ok st' →
    (∀ it ∈ st.items, it.plu_codes ≠ []) → ∀ it ∈ st'.items, it.plu_codes ≠ [] := by
  induction ls with
  | nil =>
    intro st st' h hinv
    simp only [runLines, Except.ok.injEq] at h
    subst h
    exact hinv
  | cons l ls ih =>
    intro st st' h hinv
    obtain ⟨new, path', heq, hprops, -⟩ := step_spec st l
    simp only [runLines, heq] at h
    refine ih _ _ h ?_
    intro it hit
    rcases List.mem_append.1 hit with hm | hm
    · exact hinv it hm
    · exact (hprops it hm).2.2

theorem head_tracks (ls : List Str) : ∀ st st', runLines st ls = .ok st' →
    st'.path.head? =
      ls.foldl (fun a l => if isTopLine l then some (trimS l) else a) st.path.head? := by
  induction ls with
  | nil =>
    intro st st' h
    simp only [runLines, Except.ok.injEq] at h
    subst h
    rfl
  | cons l ls ih =>
    intro st st' h
    obtain ⟨new, path', heq, -, hhead⟩ := step_spec st l
    simp only [runLines, heq] at h
    have hrec := ih _ _ h
    rw [List.foldl_cons]
    rw [hrec]
    exact congrArg (fun a => ls.foldl (fun a l => if isTopLine l then some (trimS l) else a) a) hhead

theorem runLines_append (xs : List Str) : ∀ ys st,
    runLines st (xs ++ ys) =
      (match runLines st xs with
       | .ok st' => runLines st' ys
       | .error e => .error e) := by
  induction xs with
  | nil => intro ys st; rfl
  | cons x xs ih =>
    intro ys st
    obtain ⟨new, path', heq, -, -⟩ := step_spec st x
    simp only [List.cons_append, runLines, heq]
    exact ih ys _

/-- Claim C3: parse_plu_text returns a success value (Ok with a record collection)
on every input text; the error variant is never produced and the parse never
aborts mid-input, whatever malformed or unclassifiable lines it contains. -/
theorem parse_plu_text_total (text : Str) : ∃ c, parse_plu_text text = .ok c := by
  obtain ⟨st', h⟩ := runLines_ok (linesOf text) initState
  exact ⟨⟨st'.items⟩, by simp [parse_plu_text, h]⟩

/-- Claim C1: no record in the output of parse_plu_text has an empty code list. -/
theorem parse_plu_text_no_empty_codes (text : Str) (c : PluCollection)
    (h : parse_plu_text text = .ok c) : ∀ it ∈ c.items, it.plu_codes ≠ [] := by
  obtain ⟨st', hrun⟩ := runLines_ok (linesOf text) initState
  have hc : c = ⟨st'.items⟩ := by
    simp only [parse_plu_text, hrun, Except.ok.injEq] at h
    exact h.symm
  subst hc
  exact runLines_codes _ _ _ hrun (by simp [initState])

theorem parse_plu_text_no_empty_codes_witness :
    parse_plu_text (strL "Apple\n• Fuji (4131)") =
      .ok ⟨[⟨strL "Fuji", [4131], [strL "Apple"], none, [], none⟩]⟩ ∧
    ∀ it ∈ (PluCollection.mk
        [⟨strL "Fuji", [4131], [strL "Apple"], none, [], none⟩]).items,
      it.plu_codes ≠ [] :=
  ⟨rfl, parse_plu_text_no_empty_codes (strL "Apple\n• Fuji (4131)")
    ⟨[⟨strL "Fuji", [4131], [strL "Apple"], none, [], none⟩]⟩ rfl⟩

/-- Claim C2: every record emitted while processing line k of the input has a
category path of length 1 or 2, and its first element is the label of the most
recent top-level category line among the lines preceding line k. -/
theorem emittedAt_category_path (text : Str) (k : Nat) (it : PluItem)
    (h : it ∈ emittedAt (linesOf text) k) :
    (it.category_path.length = 1 ∨ it.category_path.length = 2) ∧
    it.category_path.head? = lastTopLabel ((linesOf text).take k) := by
  set ls := linesOf text with hls
  by_cases hk : k < ls.length
  · have htake : ls.take (k + 1) = ls.take k ++ [ls[k]] := by
      rw [List.take_succ, List.getElem?_eq_getElem hk]
      rfl
    obtain ⟨stk, hstk⟩ := runLines_ok (ls.take k) initState
    have hA : stateAfter (ls.take k) = stk := by simp [stateAfter, hstk]
    obtain ⟨new, path', heq, hprops, -⟩ := step_spec stk ls[k]
    have hrun1 : runLines initState (ls.take (k + 1)) = .ok ⟨stk.items ++ new, path'⟩ := by
      rw [htake, runLines_append]
      simp [hstk, runLines, heq]
    have hB : stateAfter (ls.take (k + 1)) = ⟨stk.items ++ new, path'⟩ := by
      simp [stateAfter, hrun1]
    rw [emittedAt, hA, hB] at h
    simp only [List.drop_left] at h
    have hm := hprops it h
    refine ⟨hm.1, ?_⟩
    rw [hm.2.1]
    have hht := head_tracks (ls.take k) initState stk hstk
    rw [hht]
    rfl
  · have h1 : ls.take (k + 1) = ls := List.take_of_length_le (by omega)
    have h2 : ls.take k = ls := List.take_of_length_le (by omega)
    rw [emittedAt, h1, h2, List.drop_length] at h
    simp at h

theorem emittedAt_category_path_witness :
    (⟨strL "Cavendish", [4011], [strL "Banana"], none, [], none⟩ : PluItem) ∈
      emittedAt (linesOf (strL "Banana\n• Cavendish (4011)")) 1 ∧
    (((⟨strL "Cavendish", [4011], [strL "Banana"], none, [], none⟩ : PluItem).category_path.length = 1 ∨
      (⟨strL "Cavendish", [4011], [strL "Banana"], none, [], none⟩ : PluItem).category_path.length = 2) ∧
     (⟨strL "Cavendish", [4011], [strL "Banana"], none, [], none⟩ : PluItem).category_path.head? =
       lastTopLabel ((linesOf (strL "Banana\n• Cavendish (4011)")).take 1)) :=
  ⟨by decide, emittedAt_category_path _ _ _ (by decide)⟩

/-! ## Shape lemmas for the line classifiers -/

theorem rstrip_cons {c : Char} (t : Str) (hc : isWs c = false) :
    rstrip (c :: t) = c :: rstrip t := by
  unfold rstrip
  rw [List.reverse_cons, List.dropWhile_append]
  split
  · next he =>
    have he' : List.dropWhile isWs t.reverse = [] := by simpa using he
    rw [he']
    simp [List.dropWhile_cons, hc]
  · simp

theorem lstrip_cons {c : Char} (t : Str) (hc : isWs c = false) :
    lstrip (c :: t) = c :: t := by
  simp [lstrip, List.dropWhile_cons, hc]

theorem trimS_cons {c : Char} (t : Str) (hc : isWs c = false) :
    trimS (c :: t) = c :: rstrip t := by
  rw [trimS, lstrip_cons t hc, rstrip_cons t hc]

theorem reItem1_shape (line raw : Str) (h : reItem1 line = some raw) :
    ∃ rest, line = '•' :: rest := by
  cases line with
  | nil => simp [reItem1] at h
  | cons c t =>
    by_cases hc : c = '•'
    · exact ⟨t, by rw [hc]⟩
    · simp [reItem1, hc] at h

theorem reItem2_shape (line raw : Str) (h : reItem2 line = some raw) :
    ∃ c t, line = c :: t ∧ isWs c = true := by
  cases line with
  | nil => simp [reItem2] at h
  | cons c t =>
    by_cases hc : isWs c = true
    · exact ⟨c, t, rfl, hc⟩
    · exfalso
      have hc' : isWs c = false := by simpa using hc
      have hlt : (List.takeWhile isWs (c :: t)).length < 2 := by
        simp [List.takeWhile_cons, hc']
      simp [reItem2, hlt] at h

theorem reItem2_drop (line raw : Str) (h : reItem2 line = some raw) :
    ∃ rest, line.dropWhile isWs = 'o' :: rest := by
  unfold reItem2 at h
  split at h
  · exact absurd h (by simp)
  · split at h
    · exact absurd h (by simp)
    · next c rest heq =>
      split at h
      · next hco =>
        have hc : c = 'o' := by simpa using hco
        exact ⟨rest, by rw [heq, hc]⟩
      · exact absurd h (by simp)

theorem ws_ne_bullet {c : Char} (h : isWs c = true) : (c == '•') = false := by
  simp only [isWs, Bool.or_eq_true, beq_iff_eq] at h
  rcases h with ((h | h) | h) | h <;> subst h <;> decide

/-- Claim C10: a first-level bulleted line met while the category path is empty is
skipped entirely: no record is emitted and the path stays empty, even when the
content ends with a colon. -/
theorem firstLevel_no_parent_skipped (st : ParseState) (line raw : Str)
    (h1 : reItem1 line = some raw) (h2 : st.path = []) :
    stepLine st line = .ok st := by
  obtain ⟨si, sp⟩ := st
  have h2' : sp = [] := h2
  subst h2'
  obtain ⟨rest, hline⟩ := reItem1_shape line raw h1
  subst hline
  have htr : trimS ('•' :: rest) = '•' :: rstrip rest := trimS_cons rest (by decide)
  have hskip : isSkipLine ('•' :: rstrip rest) = false := rfl
  have htop : topCond ('•' :: rstrip rest) = false := rfl
  simp [stepLine, htr, hskip, htop, h1]

theorem firstLevel_no_parent_skipped_witness :
    reItem1 (strL "• Watermelon:") = some (strL "Watermelon:") ∧
    stepLine ⟨[], []⟩ (strL "• Watermelon:") = .ok ⟨[], []⟩ :=
  ⟨rfl, firstLevel_no_parent_skipped ⟨[], []⟩ _ _ rfl rfl⟩

/-- Claim C9: a second-level bulleted line is processed as an item at the current
2-element category path exactly when the path (trimmed to depth 2) has length
2; otherwise the line is skipped and contributes zero records. -/
theorem secondLevel_scope (st : ParseState) (line raw : Str)
    (h : reItem2 line = some raw) :
    (2 ≤ st.path.length →
      ∃ b new, process_item_line (trimS raw) (st.path.take 2) = .ok (b, new) ∧
        stepLine st line = .ok ⟨st.items ++ new, st.path.take 2⟩) ∧
    (st.path.length < 2 → stepLine st line = .ok ⟨st.items, st.path.take 2⟩) := by
  obtain ⟨c, t, hline, hcws⟩ := reItem2_shape line raw h
  obtain ⟨orest, hdrop⟩ := reItem2_drop line raw h
  have htr : trimS line = 'o' :: rstrip orest := by
    rw [trimS, lstrip, hdrop]
    exact rstrip_cons orest (by decide)
  have hskip : isSkipLine (trimS line) = false := by rw [htr]; rfl
  have htop : topCond (trimS line) = false := by rw [htr]; rfl
  have hit1 : reItem1 line = none := by
    rw [hline]
    simp [reItem1, ws_ne_bullet hcws]
  constructor
  · intro hge
    have hlen : (st.path.take 2).length = 2 := by
      rw [List.length_take]
      exact Nat.min_eq_left hge
    obtain ⟨⟨b, new⟩, hres⟩ := processItem_ok (trimS raw) (st.path.take 2)
    refine ⟨b, new, hres, ?_⟩
    simp [stepLine, hskip, htop, hit1, h, hlen, hres]
  · intro hlt
    have hlen : (st.path.take 2).length ≠ 2 := by
      rw [List.length_take]
      omega
    simp [stepLine, hskip, htop, hit1, h, hlen]
    intro hge
    exact absurd hge (by omega)

theorem secondLevel_scope_witness :
    reItem2 (strL "   o Mini (3421)") = some (strL "Mini (3421)") ∧
    ((2 ≤ (ParseState.mk [] [strL "Melon", strL "Watermelon"]).path.length →
      ∃ b new, process_item_line (trimS (strL "Mini (3421)"))
          ((ParseState.mk [] [strL "Melon", strL "Watermelon"]).path.take 2) = .ok (b, new) ∧
        stepLine (ParseState.mk [] [strL "Melon", strL "Watermelon"]) (strL "   o Mini (3421)") =
          .ok ⟨(ParseState.mk [] [strL "Melon", strL "Watermelon"]).items ++ new,
               (ParseState.mk [] [strL "Melon", strL "Watermelon"]).path.take 2⟩) ∧
     ((ParseState.mk [] [strL "Melon", strL "Watermelon"]).path.length < 2 →
      stepLine (ParseState.mk [] [strL "Melon", strL "Watermelon"]) (strL "   o Mini (3421)") =
        .ok ⟨(ParseState.mk [] [strL "Melon", strL "Watermelon"]).items,
             (ParseState.mk [] [strL "Melon", strL "Watermelon"]).path.take 2⟩)) :=
  ⟨rfl, secondLevel_scope (ParseState.mk [] [strL "Melon", strL "Watermelon"]) _ _ rfl⟩

/-! ## The single-code pattern (C8) -/

/-- Claim C8: an item line classified by the single-code pattern with a nonempty
extracted code list emits exactly one record; a trailing comma-size suffix of
the residual name (after characteristics and alternate-name extraction) is
peeled off into the size field, otherwise the size is unset and the name used
as-is. -/
theorem singleCode_pattern (content : Str) (path : List Str) (np cs : Str)
    (h0 : containsSub content (strL "retailer assigned") = false)
    (h1 : altSizeSplit content = none)
    (h2 : reStandard content = some (np, cs))
    (h3 : parse_plu_codes cs ≠ []) :
    ∃ it, process_item_line content path = .ok (true, [it]) ∧
      it.plu_codes = parse_plu_codes cs ∧ it.category_path = path ∧
      ((∃ h1n szs,
          sizeSuffix (extract_alternative_name (extract_characteristics (trimS np)).1).1 =
            some (h1n, szs) ∧
          it.name = trimS h1n ∧ it.size = some (normalize_size szs)) ∨
       (sizeSuffix (extract_alternative_name (extract_characteristics (trimS np)).1).1 = none ∧
        it.name = (extract_alternative_name (extract_characteristics (trimS np)).1).1 ∧
        it.size = none)) := by
  have hemp : (parse_plu_codes cs).isEmpty = false := by
    rcases hx : parse_plu_codes cs with _ | ⟨a, l⟩
    · exact absurd hx h3
    · rfl
  simp only [process_item_line, h0, h1, h2, hemp, Bool.false_eq_true, if_false,
    Bool.not_false, if_true]
  cases hss : sizeSuffix (extract_alternative_name (extract_characteristics (trimS np)).1).1 with
  | some pr =>
    obtain ⟨h1n, szs⟩ := pr
    exact ⟨_, rfl, rfl, rfl, Or.inl ⟨h1n, szs, rfl, rfl, rfl⟩⟩
  | none =>
    exact ⟨_, rfl, rfl, rfl, Or.inr ⟨rfl, rfl, rfl⟩⟩

theorem singleCode_pattern_witness :
    containsSub (strL "Akane, small (4098)") (strL "retailer assigned") = false ∧
    altSizeSplit (strL "Akane, small (4098)") = none ∧
    reStandard (strL "Akane, small (4098)") = some (strL "Akane, small", strL "4098") ∧
    parse_plu_codes (strL "4098") ≠ [] ∧
    (∃ it, process_item_line (strL "Akane, small (4098)") [strL "Apple"] = .ok (true, [it]) ∧
      it.plu_codes = parse_plu_codes (strL "4098") ∧ it.category_path = [strL "Apple"] ∧
      ((∃ h1n szs,
          sizeSuffix (extract_alternative_name
              (extract_characteristics (trimS (strL "Akane, small"))).1).1 = some (h1n, szs) ∧
          it.name = trimS h1n ∧ it.size = some (normalize_size szs)) ∨
       (sizeSuffix (extract_alternative_name
            (extract_characteristics (trimS (strL "Akane, small"))).1).1 = none ∧
        it.name = (extract_alternative_name
            (extract_characteristics (trimS (strL "Akane, small"))).1).1 ∧
        it.size = none))) :=
  ⟨by decide, by decide, by decide, by decide,
   singleCode_pattern (strL "Akane, small (4098)") [strL "Apple"] _ _
     (by decide) (by decide) (by decide) (by decide)⟩

/-! ## Range suppression (C6) -/

theorem takeWhile_all_append {α : Type} {p : α → Bool} {l1 l2 : List α} {c : α}
    (hall : ∀ x ∈ l1, p x = true) (hc : p c = false) :
    (l1 ++ c :: l2).takeWhile p = l1 := by
  induction l1 with
  | nil => simp [List.takeWhile_cons, hc]
  | cons a t ih =>
    rw [List.cons_append, List.takeWhile_cons, hall a (by simp)]
    rw [ih (fun x hx => hall x (by simp [hx]))]
    simp

/-- Claim C6: whenever the paren-trimmed content of the input has the
digits-dash-digits shape (with either the ASCII hyphen or the U+2010 hyphen as
separator), parse_plu_codes returns the empty code sequence. -/
theorem range_returns_empty (s d1 d2 : Str) (c : Char)
    (h : trimParens s = d1 ++ c :: d2)
    (h1 : d1 ≠ []) (h2 : ∀ x ∈ d1, isDig x = true)
    (h3 : isDash c = true)
    (h4 : d2 ≠ []) (h5 : ∀ x ∈ d2, isDig x = true) :
    parse_plu_codes s = [] := by
  have hcd : isDig c = false := by
    simp only [isDash, Bool.or_eq_true, beq_iff_eq] at h3
    rcases h3 with h3 | h3 <;> subst h3 <;> decide
  have htw : (d1 ++ c :: d2).takeWhile isDig = d1 := takeWhile_all_append h2 hcd
  have hne : (d1 ++ c :: d2).isEmpty = false := by cases d1 <;> rfl
  have hd1 : d1.isEmpty = false := by
    rcases d1 with _ | ⟨a, t⟩
    · exact absurd rfl h1
    · rfl
  have hrange : reRangeFull (d1 ++ c :: d2) = true := by
    simp only [reRangeFull, htw, hd1, Bool.false_eq_true, if_false, List.drop_left]
    simp only [h3, Bool.true_and]
    have hd2 : d2.isEmpty = false := by
      rcases d2 with _ | ⟨a, t⟩
      · exact absurd rfl h4
      · rfl
    rw [hd2]
    simp only [Bool.not_false, Bool.true_and]
    rw [List.all_eq_true]
    exact h5
  simp only [parse_plu_codes, h, hne, Bool.false_eq_true, if_false, hrange, if_true]

theorem range_returns_empty_witness :
    trimParens (strL "(4193-4217)") = strL "4193" ++ '-' :: strL "4217" ∧
    strL "4193" ≠ [] ∧ (∀ x ∈ strL "4193", isDig x = true) ∧
    isDash '-' = true ∧ strL "4217" ≠ [] ∧ (∀ x ∈ strL "4217", isDig x = true) ∧
    parse_plu_codes (strL "(4193-4217)") = [] :=
  ⟨by decide, by decide, by decide, by decide, by decide, by decide,
   range_returns_empty (strL "(4193-4217)") (strL "4193") (strL "4217") '-'
     (by decide) (by decide) (by decide) (by decide) (by decide) (by decide)⟩

/-! ## The truncation heuristic (C5) -/

/-- The skip flag that the loop of parse_plu_codes would carry after a list of
candidates (proof abstraction of the loop state; the flag is armed by every
processed truncatable five-digit candidate, and skGo ignores the flag on an
empty remainder, so the nonemptiness test of the source is immaterial here). -/
def skipAfter : Bool → List Str → Bool
  | b, [] => b
  | true, _ :: rest => skipAfter false rest
  | false, n :: rest => skipAfter (n.length == 5 && truncPfx n) rest

theorem skGo_flag_nil (rest : List Str) : skGo (!rest.isEmpty) rest = skGo true rest := by
  cases rest <;> rfl

theorem skGo_append (xs : List Str) : ∀ (b : Bool) (ys : List Str),
    skGo b (xs ++ ys) = skGo b xs ++ skGo (skipAfter b xs) ys := by
  induction xs with
  | nil => intro b ys; cases b <;> rfl
  | cons n xs ih =>
    intro b ys
    cases b with
    | true =>
      simp only [List.cons_append, skGo, skipAfter]
      exact ih false ys
    | false =>
      by_cases hn : (n.length == 5 && truncPfx n) = true
      · simp only [List.cons_append, skGo, skipAfter, hn, if_true]
        rw [skGo_flag_nil, skGo_flag_nil]
        cases hx : parseU32 (n.take 4) <;>
          simp [ih true ys, skipAfter]
      · simp only [List.cons_append, skGo, skipAfter, hn, if_false, Bool.false_eq_true]
        cases hx : parseU32 n <;>
          simp [ih false ys, skipAfter, hn]

theorem digitRunsGo_digits : ∀ (rest cur : Str), (∀ c ∈ cur, isDig c = true) →
    ∀ run ∈ digitRunsGo cur rest, run ≠ [] ∧ ∀ c ∈ run, isDig c = true := by
  intro rest
  induction rest with
  | nil =>
    intro cur hcur run hmem
    unfold digitRunsGo at hmem
    split at hmem
    · simp at hmem
    · next he =>
      simp only [List.mem_singleton] at hmem
      subst hmem
      refine ⟨by simpa using ne_nil_of_isEmpty_eq_false (by simpa using he), ?_⟩
      intro c hc
      exact hcur c (List.mem_reverse.1 hc)
  | cons a t ih =>
    intro cur hcur run hmem
    unfold digitRunsGo at hmem
    split at hmem
    · next ha =>
      refine ih (a :: cur) ?_ run hmem
      intro c hc
      rcases List.mem_cons.1 hc with hc | hc
      · subst hc; exact ha
      · exact hcur c hc
    · split at hmem
      · exact ih [] (by simp) run hmem
      · next he =>
        rcases List.mem_cons.1 hmem with hm | hm
        · subst hm
          refine ⟨by simpa using ne_nil_of_isEmpty_eq_false (by simpa using he), ?_⟩
          intro c hc
          exact hcur c (List.mem_reverse.1 hc)
        · exact ih [] (by simp) run hm

theorem digitRuns_digits (s : Str) :
    ∀ run ∈ digitRuns s, run ≠ [] ∧ ∀ c ∈ run, isDig c = true :=
  digitRunsGo_digits s [] (by simp)

theorem digitsVal_foldl_lt : ∀ (s : Str) (a : Nat), (∀ c ∈ s, isDig c = true) →
    s.foldl (fun a c => a * 10 + (c.toNat - 48)) a < (a + 1) * 10 ^ s.length := by
  intro s
  induction s with
  | nil => intro a _; simp
  | cons c t ih =>
    intro a hall
    have hc : c.toNat ≤ 57 := by
      have := hall c (by simp)
      simp only [isDig, Bool.and_eq_true, decide_eq_true_eq] at this
      exact this.2
    have hd : c.toNat - 48 ≤ 9 := by omega
    have h1 := ih (a * 10 + (c.toNat - 48)) (fun x hx => hall x (by simp [hx]))
    calc (c :: t).foldl (fun a c => a * 10 + (c.toNat - 48)) a
        = t.foldl (fun a c => a * 10 + (c.toNat - 48)) (a * 10 + (c.toNat - 48)) := rfl
      _ < (a * 10 + (c.toNat - 48) + 1) * 10 ^ t.length := h1
      _ ≤ ((a + 1) * 10) * 10 ^ t.length := by
          have : a * 10 + (c.toNat - 48) + 1 ≤ (a + 1) * 10 := by omega
          exact Nat.mul_le_mul_right _ this
      _ = (a + 1) * 10 ^ (c :: t).length := by
          rw [List.length_cons, pow_succ]
          ring

theorem digitsVal_lt_of_digits {s : Str} (h : ∀ c ∈ s, isDig c = true) :
    digitsVal s < 10 ^ s.length := by
  simpa using digitsVal_foldl_lt s 0 h

/-- Claim C5 as stated is refuted at "41361, 41372": the second candidate run is a
five-digit run with a truncatable head, yet its truncation 4137 is absent from
the output, because that candidate was itself discarded as the footnote of the
preceding truncated candidate. -/
theorem truncation_counterexample :
    digitRuns (trimParens (strL "41361, 41372")) = [strL "41361", strL "41372"] ∧
    (strL "41372").length = 5 ∧ truncPfx (strL "41372") = true ∧
    parse_plu_codes (strL "41361, 41372") = [4136] ∧
    ¬ (4137 ∈ parse_plu_codes (strL "41361, 41372")) := by
  decide

/-- Claim C5, amended: a truncatable five-digit candidate that is itself processed
(not discarded as the footnote of an immediately preceding truncated
candidate) contributes exactly its truncated four-digit code in place, and the
immediately following candidate, if any, is discarded. -/
theorem truncation_amended (s : Str) (pre : List Str) (r : Str) (post : List Str)
    (hne : (trimParens s).isEmpty = false)
    (hnr : reRangeFull (trimParens s) = false)
    (hr : digitRuns (trimParens s) = pre ++ r :: post)
    (h5 : r.length = 5) (hp : truncPfx r = true)
    (hsk : skipAfter false pre = false) :
    parse_plu_codes s = skGo false pre ++ digitsVal (r.take 4) :: skGo false (post.drop 1) := by
  have hrd : ∀ c ∈ r, isDig c = true := by
    have := digitRuns_digits (trimParens s) r (by rw [hr]; simp)
    exact this.2
  have hr4 : parseU32 (r.take 4) = some (digitsVal (r.take 4)) := by
    have hdig4 : ∀ c ∈ r.take 4, isDig c = true := fun c hc => hrd c (List.mem_of_mem_take hc)
    have hlen4 : (r.take 4).length = 4 := by rw [List.length_take]; omega
    have hne4 : (r.take 4).isEmpty = false := by
      rcases hx : r.take 4 with _ | ⟨a, t⟩
      · rw [hx] at hlen4; simp at hlen4
      · rfl
    have hlt : digitsVal (r.take 4) < 4294967296 := by
      have := digitsVal_lt_of_digits hdig4
      rw [hlen4] at this
      omega
    simp [parseU32, hne4, List.all_eq_true.2 hdig4, hlt]
  have hstep : skGo false (r :: post) = digitsVal (r.take 4) :: skGo false (post.drop 1) := by
    have hcond : (r.length == 5 && truncPfx r) = true := by
      simp [h5, hp]
    simp only [skGo, hcond, if_true]
    rw [hr4]
    cases post with
    | nil => rfl
    | cons q qs => rfl
  have hflag : skGo (skipAfter false pre) (r :: post) = skGo false (r :: post) := by
    rw [hsk]
  simp only [parse_plu_codes, hne, Bool.false_eq_true, if_false, hnr, hr]
  rw [skGo_append, hflag, hstep]

theorem truncation_amended_witness :
    (trimParens (strL "4021, 41361,2")).isEmpty = false ∧
    reRangeFull (trimParens (strL "4021, 41361,2")) = false ∧
    digitRuns (trimParens (strL "4021, 41361,2")) =
      [strL "4021"] ++ strL "41361" :: [strL "2"] ∧
    (strL "41361").length = 5 ∧ truncPfx (strL "41361") = true ∧
    skipAfter false [strL "4021"] = false ∧
    parse_plu_codes (strL "4021, 41361,2") =
      skGo false [strL "4021"] ++
        digitsVal ((strL "41361").take 4) :: skGo false (([strL "2"]).drop 1) :=
  ⟨by decide, by decide, by decide, by decide, by decide, by decide,
   truncation_amended (strL "4021, 41361,2") [strL "4021"] (strL "41361") [strL "2"]
     (by decide) (by decide) (by decide) (by decide) (by decide) (by decide)⟩

/-! ## Parsing a single plain digit run -/

theorem takeWhile_all {α : Type} {p : α → Bool} {l : List α}
    (hall : ∀ x ∈ l, p x = true) : l.takeWhile p = l := by
  induction l with
  | nil => rfl
  | cons a t ih =>
    rw [List.takeWhile_cons, hall a (by simp), ih (fun x hx => hall x (by simp [hx]))]
    simp

theorem digit_ne {c ch : Char} (h : isDig c = true) (hch : isDig ch = false) :
    (c == ch) = false := by
  cases hbe : (c == ch) with
  | false => rfl
  | true =>
    have hc : c = ch := by simpa using hbe
    subst hc
    exact absurd h (by simp [hch])

theorem digit_not_paren {c : Char} (h : isDig c = true) : isParen c = false := by
  simp [isParen, digit_ne h (show isDig '(' = false by decide),
    digit_ne h (show isDig ')' = false by decide)]

theorem digitRunsGo_all : ∀ (d cur : Str), (∀ c ∈ d, isDig c = true) →
    digitRunsGo cur d = if (cur.reverse ++ d).isEmpty then [] else [cur.reverse ++ d] := by
  intro d
  induction d with
  | nil =>
    intro cur _
    cases cur <;> simp [digitRunsGo]
  | cons c t ih =>
    intro cur hall
    have hc : isDig c = true := hall c (by simp)
    have hrec := ih (c :: cur) (fun x hx => hall x (by simp [hx]))
    rw [digitRunsGo, if_pos hc, hrec]
    have he1 : (c :: cur).reverse ++ t = cur.reverse ++ (c :: t) := by simp
    rw [he1]

/-- parse_plu_codes on a single plain digit run: no parens to strip, not a
range, one candidate, no truncation, no overflow. -/
theorem parse_codes_single (d : Str) (h1 : d ≠ []) (h2 : ∀ c ∈ d, isDig c = true)
    (h3 : (d.length = 5 ∧ truncPfx d = true) → False) (h4 : digitsVal d < 4294967296) :
    parse_plu_codes d = [digitsVal d] := by
  obtain ⟨c0, t0, hd0⟩ : ∃ c0 t0, d = c0 :: t0 := by
    rcases d with _ | ⟨a, t⟩
    · exact absurd rfl h1
    · exact ⟨a, t, rfl⟩
  have hemp : d.isEmpty = false := by rw [hd0]; rfl
  have htp : trimParens d = d := by
    have hdw : d.dropWhile isParen = d := by
      rw [hd0]
      rw [List.dropWhile_cons]
      simp [digit_not_paren (h2 c0 (by rw [hd0]; simp))]
    have hrevne : d.reverse ≠ [] := by simpa using h1
    obtain ⟨c1, t1, hrev⟩ : ∃ c1 t1, d.reverse = c1 :: t1 := by
      rcases hx : d.reverse with _ | ⟨a, t⟩
      · exact absurd hx hrevne
      · exact ⟨a, t, rfl⟩
    have hc1 : isDig c1 = true := h2 c1 (List.mem_reverse.1 (by rw [hrev]; simp))
    unfold trimParens
    rw [hdw, hrev, List.dropWhile_cons]
    simp only [digit_not_paren hc1, Bool.false_eq_true, if_false]
    rw [← hrev, List.reverse_reverse]
  have hrange : reRangeFull d = false := by
    simp only [reRangeFull, takeWhile_all h2, hemp, Bool.false_eq_true, if_false,
      List.drop_length]
  have hruns : digitRuns d = [d] := by
    rw [digitRuns, digitRunsGo_all d [] h2]
    simp [hemp]
  have hcond : (d.length == 5 && truncPfx d) = false := by
    by_cases h5 : d.length = 5
    · have htf : truncPfx d = false := by
        cases hx : truncPfx d with
        | false => rfl
        | true => exact absurd (h3 ⟨h5, hx⟩) (fun h => h)
      simp [htf]
    · have : (d.length == 5) = false := by simpa using h5
      simp [this]
  have hparse : parseU32 d = some (digitsVal d) := by
    simp [parseU32, hemp, List.all_eq_true.2 h2, h4]
  simp only [parse_plu_codes, htp, hemp, Bool.false_eq_true, if_false, hrange, hruns]
  simp only [skGo, hcond, Bool.false_eq_true, if_false]
  rw [hparse]

/-! ## Substring facts -/

theorem mem_of_isPrefixOf : ∀ (p s : Str), p.isPrefixOf s = true → ∀ x ∈ p, x ∈ s := by
  intro p
  induction p with
  | nil => intro s _ x hx; simp at hx
  | cons a q ih =>
    intro s h x hx
    cases s with
    | nil => simp [List.isPrefixOf] at h
    | cons b t =>
      simp only [List.isPrefixOf, Bool.and_eq_true, beq_iff_eq] at h
      rcases List.mem_cons.1 hx with hx | hx
      · subst hx
        rw [h.1]
        simp
      · exact List.mem_cons_of_mem b (ih t h.2 x hx)

theorem mem_of_containsSub : ∀ (s pat : Str), containsSub s pat = true → ∀ x ∈ pat, x ∈ s := by
  intro s
  induction s with
  | nil =>
    intro pat h x hx
    simp only [containsSub] at h
    have : pat = [] := by simpa using h
    subst this
    simp at hx
  | cons c t ih =>
    intro pat h x hx
    simp only [containsSub, Bool.or_eq_true] at h
    rcases h with h | h
    · exact mem_of_isPrefixOf pat (c :: t) h x hx
    · exact List.mem_cons_of_mem c (ih pat h x hx)

theorem containsSub_false {s pat : Str} {x : Char} (hx : x ∈ pat)
    (hnx : ∀ c ∈ s, (c == x) = false) : containsSub s pat = false := by
  cases hc : containsSub s pat with
  | false => rfl
  | true =>
    have hmem := mem_of_containsSub s pat hc x hx
    have := hnx x hmem
    simp at this

/-! ## The dual-size regex on the schema "base, small (da), large (db)" -/

theorem grpTail_small (da Y : Str) (hda : ∀ c ∈ da, isDig c = true)
    (hne : da.isEmpty = false) :
    grpTail (strL " small (" ++ (da ++ (')' :: Y))) = some (strL "small", da, Y) := by
  have h4 : (da ++ (')' :: Y)).takeWhile codeClass = da :=
    takeWhile_all_append (fun c hc => by simp [codeClass, hda c hc]) (by decide)
  have key : grpTail (strL " small (" ++ (da ++ (')' :: Y))) =
      (if (List.takeWhile codeClass (da ++ (')' :: Y))).isEmpty = true then none
       else
         match List.drop (List.takeWhile codeClass (da ++ (')' :: Y))).length
             (da ++ (')' :: Y)) with
         | ')' :: r5 => some (strL "small", List.takeWhile codeClass (da ++ (')' :: Y)), r5)
         | _ => none) := rfl
  rw [key, h4, hne]
  rw [List.drop_left]
  rfl

theorem grpTail_large (db Y : Str) (hdb : ∀ c ∈ db, isDig c = true)
    (hne : db.isEmpty = false) :
    grpTail (strL " large (" ++ (db ++ (')' :: Y))) = some (strL "large", db, Y) := by
  have h4 : (db ++ (')' :: Y)).takeWhile codeClass = db :=
    takeWhile_all_append (fun c hc => by simp [codeClass, hdb c hc]) (by decide)
  have key : grpTail (strL " large (" ++ (db ++ (')' :: Y))) =
      (if (List.takeWhile codeClass (db ++ (')' :: Y))).isEmpty = true then none
       else
         match List.drop (List.takeWhile codeClass (db ++ (')' :: Y))).length
             (db ++ (')' :: Y)) with
         | ')' :: r5 => some (strL "large", List.takeWhile codeClass (db ++ (')' :: Y)), r5)
         | _ => none) := rfl
  rw [key, h4, hne]
  rw [List.drop_left]
  rfl

theorem altSizeGo_skip (bs : Str) : ∀ (revPre rest : Str),
    (∀ c ∈ bs, (c == ',') = false) →
    altSizeGo revPre (bs ++ rest) = altSizeGo (bs.reverse ++ revPre) rest := by
  induction bs with
  | nil => intro revPre rest _; simp
  | cons c t ih =>
    intro revPre rest hall
    have hc : (c == ',') = false := hall c (by simp)
    rw [List.cons_append, altSizeGo, hc]
    simp only [Bool.false_eq_true, if_false]
    rw [ih (c :: revPre) rest (fun x hx => hall x (by simp [hx]))]
    congr 1
    simp

theorem altSizeGo_comma (revPre t : Str) :
    altSizeGo revPre (',' :: t) =
      (match grpTail t with
       | some (sz1, cs1, r5) =>
           (match r5 with
            | ',' :: t2 =>
                (match grpTail t2 with
                 | some (sz2, cs2, r9) =>
                     if r9.isEmpty then some (revPre.reverse, sz1, cs1, sz2, cs2)
                     else altSizeGo (',' :: revPre) t
                 | none => altSizeGo (',' :: revPre) t)
            | _ => altSizeGo (',' :: revPre) t)
       | none => altSizeGo (',' :: revPre) t) := rfl

theorem altSizeGo_comma_hit (revPre t sz1 cs1 t2 sz2 cs2 : Str)
    (hA : grpTail t = some (sz1, cs1, ',' :: t2))
    (hB : grpTail t2 = some (sz2, cs2, [])) :
    altSizeGo revPre (',' :: t) = some (revPre.reverse, sz1, cs1, sz2, cs2) := by
  rw [altSizeGo_comma]
  simp only [hA, hB, List.isEmpty_nil, if_true]

/-- The captures of the dual-size regex on content of the schema shape
"base, small (da), large (db)" with a comma-free base and plain digit runs. -/
theorem altSizeSplit_schema (base da db : Str)
    (hcomma : ∀ c ∈ base, (c == ',') = false)
    (hda : ∀ c ∈ da, isDig c = true) (hdane : da.isEmpty = false)
    (hdb : ∀ c ∈ db, isDig c = true) (hdbne : db.isEmpty = false) :
    altSizeSplit (base ++ (',' :: (strL " small (" ++ (da ++ (')' ::
      (',' :: (strL " large (" ++ (db ++ [')'])))))))) =
      some (base, strL "small", da, strL "large", db) := by
  have hg1 := grpTail_small da
    (',' :: (strL " large (" ++ (db ++ [')']))) hda hdane
  have hg2 := grpTail_large db [] hdb hdbne
  have hg2' : grpTail (strL " large (" ++ (db ++ [')'])) = some (strL "large", db, []) := hg2
  unfold altSizeSplit
  rw [altSizeGo_skip base [] _ hcomma]
  rw [altSizeGo_comma_hit _ _ _ _ _ _ _ hg1 hg2']
  simp

/-! ## The schema text "Cat\n• base, small (da), large (db)" -/

/-- The content of the schema item line, nested to the right. -/
def dualContent (base da db : Str) : Str :=
  base ++ (',' :: (strL " small (" ++ (da ++ (')' ::
    (',' :: (strL " large (" ++ (db ++ [')'])))))))

theorem dualContent_chars (base da db : Str) (c : Char)
    (hc : c ∈ dualContent base da db) :
    c ∈ base ∨ c ∈ da ∨ c ∈ db ∨ c ∈ strL ", small (), large ()" := by
  unfold dualContent at hc
  rcases List.mem_append.1 hc with h | h
  · exact Or.inl h
  · rcases List.mem_cons.1 h with h | h
    · subst h; right; right; right; decide
    · rcases List.mem_append.1 h with h | h
      · right; right; right
        exact (by decide : ∀ x ∈ strL " small (", x ∈ strL ", small (), large ()") c h
      · rcases List.mem_append.1 h with h | h
        · exact Or.inr (Or.inl h)
        · rcases List.mem_cons.1 h with h | h
          · subst h; right; right; right; decide
          · rcases List.mem_cons.1 h with h | h
            · subst h; right; right; right; decide
            · rcases List.mem_append.1 h with h | h
              · right; right; right
                exact (by decide :
                  ∀ x ∈ strL " large (", x ∈ strL ", small (), large ()") c h
              · rcases List.mem_append.1 h with h | h
                · exact Or.inr (Or.inr (Or.inl h))
                · have : c = ')' := by simpa using h
                  subst this; right; right; right; decide

theorem dualContent_no_char (base da db : Str) (x : Char)
    (hbx : ∀ c ∈ base, (c == x) = false)
    (hdx : isDig x = false)
    (hlx : ∀ c ∈ strL ", small (), large ()", (c == x) = false)
    (hda : ∀ c ∈ da, isDig c = true) (hdb : ∀ c ∈ db, isDig c = true) :
    ∀ c ∈ dualContent base da db, (c == x) = false := by
  intro c hc
  rcases dualContent_chars base da db c hc with h | h | h | h
  · exact hbx c h
  · exact digit_ne (hda c h) hdx
  · exact digit_ne (hdb c h) hdx
  · exact hlx c h

theorem rstrip_append {l m : Str} (hm : rstrip m = m) (hne : m ≠ []) :
    rstrip (l ++ m) = l ++ m := by
  have hdw : List.dropWhile isWs m.reverse = m.reverse := by
    simpa [rstrip] using congrArg List.reverse hm
  have hrne : m.reverse ≠ [] := by simpa using hne
  have hie : (List.dropWhile isWs m.reverse).isEmpty = false := by
    rw [hdw]
    rcases hx : m.reverse with _ | ⟨a, t⟩
    · exact absurd hx hrne
    · rfl
  unfold rstrip
  rw [List.reverse_append, List.dropWhile_append, hie]
  simp only [Bool.false_eq_true, if_false, hdw]
  simp

theorem linesGo_noNL : ∀ (xs acc : Str), (∀ c ∈ xs, (c == '\n') = false) →
    linesGo acc xs =
      if (acc.reverse ++ xs).isEmpty = true then [] else [acc.reverse ++ xs] := by
  intro xs
  induction xs with
  | nil =>
    intro acc _
    cases acc <;> simp [linesGo]
  | cons c t ih =>
    intro acc hall
    have hc := hall c (by simp)
    rw [linesGo, hc]
    simp only [Bool.false_eq_true, if_false]
    rw [ih (c :: acc) (fun x hx => hall x (by simp [hx]))]
    have he1 : (c :: acc).reverse ++ t = acc.reverse ++ (c :: t) := by simp
    rw [he1]

/-- Full run of parse_plu_text on the schema text
"Cat" newline "• base, small (da), large (db)" with a well-behaved base and
plain digit runs: exactly the two size records are produced. -/
theorem parse_dual_schema (base da db : Str) (b0 : Char) (bt : Str)
    (hbase : base = b0 :: bt) (hb0 : isWs b0 = false)
    (hcomma : ∀ c ∈ base, (c == ',') = false)
    (hnl : ∀ c ∈ base, (c == '\n') = false)
    (hd : ∀ c ∈ base, (c == 'd') = false)
    (hda : ∀ c ∈ da, isDig c = true) (hdane : da ≠ [])
    (hda5 : (da.length = 5 ∧ truncPfx da = true) → False)
    (hdalt : digitsVal da < 4294967296)
    (hdb : ∀ c ∈ db, isDig c = true) (hdbne : db ≠ [])
    (hdb5 : (db.length = 5 ∧ truncPfx db = true) → False)
    (hdblt : digitsVal db < 4294967296) :
    parse_plu_text (strL "Cat\n• " ++ dualContent base da db) =
      .ok ⟨[⟨trimS (extract_alternative_name (extract_characteristics (trimS base)).1).1 ++
              strL ", " ++ strL "small", [digitsVal da], [strL "Cat"],
              Option.map (fun a => trimS a ++ strL ", " ++ strL "small")
                (extract_alternative_name (extract_characteristics (trimS base)).1).2,
              (extract_characteristics (trimS base)).2, some (strL "small")⟩,
            ⟨trimS (extract_alternative_name (extract_characteristics (trimS base)).1).1 ++
              strL ", " ++ strL "large", [digitsVal db], [strL "Cat"],
              Option.map (fun a => trimS a ++ strL ", " ++ strL "large")
                (extract_alternative_name (extract_characteristics (trimS base)).1).2,
              (extract_characteristics (trimS base)).2, some (strL "large")⟩]⟩ := by
  have hdane' : da.isEmpty = false := by
    rcases da with _ | ⟨a, t⟩
    · exact absurd rfl hdane
    · rfl
  have hdbne' : db.isEmpty = false := by
    rcases db with _ | ⟨a, t⟩
    · exact absurd rfl hdbne
    · rfl
  have hCcons : dualContent base da db = b0 :: (bt ++ (',' :: (strL " small (" ++ (da ++
      (')' :: (',' :: (strL " large (" ++ (db ++ [')'])))))))) := by
    rw [dualContent, hbase]
    rfl
  have hCsnoc : dualContent base da db = (base ++ (',' :: (strL " small (" ++ (da ++
      (')' :: (',' :: (strL " large (" ++ db))))))) ++ [')'] := by
    rw [dualContent]
    simp [List.append_assoc]
  have hrsC : rstrip (dualContent base da db) = dualContent base da db := by
    rw [hCsnoc]
    exact rstrip_append rfl (by decide)
  have htrC : trimS (dualContent base da db) = dualContent base da db := by
    rw [trimS, lstrip]
    rw [hCcons, List.dropWhile_cons]
    simp only [hb0, Bool.false_eq_true, if_false]
    rw [← hCcons]
    exact hrsC
  have hline2 : strL "• " ++ dualContent base da db =
      '•' :: (' ' :: dualContent base da db) := rfl
  have hrsL : rstrip ('•' :: (' ' :: dualContent base da db)) =
      '•' :: (' ' :: dualContent base da db) := by
    have hx : '•' :: (' ' :: dualContent base da db) =
        ('•' :: (' ' :: (base ++ (',' :: (strL " small (" ++ (da ++
          (')' :: (',' :: (strL " large (" ++ db))))))))) ++ [')'] := by
      rw [dualContent]
      simp [List.append_assoc]
    rw [hx]
    exact rstrip_append rfl (by decide)
  have htrL : trimS ('•' :: (' ' :: dualContent base da db)) =
      '•' :: (' ' :: dualContent base da db) := by
    rw [trimS, lstrip_cons _ (by decide), hrsL]
  have hskipL : isSkipLine ('•' :: (' ' :: dualContent base da db)) = false := rfl
  have htopL : topCond ('•' :: (' ' :: dualContent base da db)) = false := rfl
  have hdw : (' ' :: dualContent base da db).dropWhile isWs = dualContent base da db := by
    rw [List.dropWhile_cons]
    simp only [show isWs ' ' = true from rfl, if_true]
    rw [hCcons, List.dropWhile_cons]
    simp only [hb0, Bool.false_eq_true, if_false]
  have htke : (List.takeWhile isWs (' ' :: dualContent base da db)).isEmpty = false := by
    rw [List.takeWhile_cons]
    simp [show isWs ' ' = true from rfl]
  have hitem1 : reItem1 ('•' :: (' ' :: dualContent base da db)) =
      some (dualContent base da db) := by
    simp [reItem1, htke, hdw]
  have hec : endsColon (dualContent base da db) = false := by
    have hrev : (dualContent base da db).reverse = ')' :: ((base ++ (',' ::
        (strL " small (" ++ (da ++ (')' :: (',' :: (strL " large (" ++ db))))))).reverse) := by
      rw [hCsnoc]
      simp
    unfold endsColon
    rw [hrev]
    rfl
  have hret : containsSub (dualContent base da db) (strL "retailer assigned") = false := by
    refine containsSub_false (x := 'd') (by decide) ?_
    exact dualContent_no_char base da db 'd' hd (by decide) (by decide) hda hdb
  have hsplit : altSizeSplit (dualContent base da db) =
      some (base, strL "small", da, strL "large", db) := by
    rw [dualContent]
    exact altSizeSplit_schema base da db hcomma hda hdane' hdb hdbne'
  have hcda : parse_plu_codes da = [digitsVal da] := parse_codes_single da hdane hda hda5 hdalt
  have hcdb : parse_plu_codes db = [digitsVal db] := parse_codes_single db hdbne hdb hdb5 hdblt
  have hn1 : normalize_size (strL "small") = strL "small" := rfl
  have hn2 : normalize_size (strL "large") = strL "large" := rfl
  have hproc : process_item_line (dualContent base da db) [strL "Cat"] =
      .ok (true,
        [⟨trimS (extract_alternative_name (extract_characteristics (trimS base)).1).1 ++
            strL ", " ++ strL "small", [digitsVal da], [strL "Cat"],
            Option.map (fun a => trimS a ++ strL ", " ++ strL "small")
              (extract_alternative_name (extract_characteristics (trimS base)).1).2,
            (extract_characteristics (trimS base)).2, some (strL "small")⟩,
         ⟨trimS (extract_alternative_name (extract_characteristics (trimS base)).1).1 ++
            strL ", " ++ strL "large", [digitsVal db], [strL "Cat"],
            Option.map (fun a => trimS a ++ strL ", " ++ strL "large")
              (extract_alternative_name (extract_characteristics (trimS base)).1).2,
            (extract_characteristics (trimS base)).2, some (strL "large")⟩]) := by
    simp only [process_item_line, hret, Bool.false_eq_true, if_false, hsplit,
      hcda, hcdb, hn1, hn2]
    simp
  have hnl2 : ∀ c ∈ strL "• " ++ dualContent base da db, (c == '\n') = false := by
    intro c hc
    rcases List.mem_append.1 hc with h | h
    · exact (by decide : ∀ x ∈ strL "• ", (x == '\n') = false) c h
    · exact dualContent_no_char base da db '\n' hnl (by decide) (by decide) hda hdb c h
  have hlnne : (strL "• " ++ dualContent base da db).isEmpty = false := by
    rw [hline2]
    rfl
  have hlines : linesOf (strL "Cat\n• " ++ dualContent base da db) =
      [strL "Cat", strL "• " ++ dualContent base da db] := by
    have h0 : linesOf (strL "Cat\n• " ++ dualContent base da db) =
        strL "Cat" :: linesGo [] (strL "• " ++ dualContent base da db) := rfl
    rw [h0, linesGo_noNL _ [] hnl2]
    simp only [List.reverse_nil, List.nil_append, hlnne, Bool.false_eq_true, if_false]
  have hstep1 : stepLine initState (strL "Cat") = .ok ⟨[], [strL "Cat"]⟩ := rfl
  have hstep2 : stepLine ⟨[], [strL "Cat"]⟩ (strL "• " ++ dualContent base da db) =
      .ok ⟨[⟨trimS (extract_alternative_name (extract_characteristics (trimS base)).1).1 ++
              strL ", " ++ strL "small", [digitsVal da], [strL "Cat"],
              Option.map (fun a => trimS a ++ strL ", " ++ strL "small")
                (extract_alternative_name (extract_characteristics (trimS base)).1).2,
              (extract_characteristics (trimS base)).2, some (strL "small")⟩,
            ⟨trimS (extract_alternative_name (extract_characteristics (trimS base)).1).1 ++
              strL ", " ++ strL "large", [digitsVal db], [strL "Cat"],
              Option.map (fun a => trimS a ++ strL ", " ++ strL "large")
                (extract_alternative_name (extract_characteristics (trimS base)).1).2,
              (extract_characteristics (trimS base)).2, some (strL "large")⟩],
           [strL "Cat"]⟩ := by
    rw [hline2]
    simp only [stepLine, htrL, hskipL, htopL, hitem1, htrC, hec]
    simp [hproc]
  unfold parse_plu_text
  rw [hlines]
  simp only [runLines, hstep1, hstep2]

/-- Claim C4: a top-level category line "Cat" followed by the first-level item line
"• Base, small (A), large (B)" with plain numeric codes A and B (nonempty
decimal digit runs, not of the five-digit truncatable-head shape, within the
u32 range) parses to exactly the two records "Base, small" and "Base, large"
with category path ["Cat"] and code lists [A] and [B]. -/
theorem dual_size_split_roundtrip (da db : Str)
    (hda : ∀ c ∈ da, isDig c = true) (hdane : da ≠ [])
    (hda5 : (da.length = 5 ∧ truncPfx da = true) → False)
    (hdalt : digitsVal da < 4294967296)
    (hdb : ∀ c ∈ db, isDig c = true) (hdbne : db ≠ [])
    (hdb5 : (db.length = 5 ∧ truncPfx db = true) → False)
    (hdblt : digitsVal db < 4294967296) :
    parse_plu_text (strL "Cat\n• Base, small (" ++ (da ++ (strL "), large (" ++
        (db ++ strL ")")))) =
      .ok ⟨[⟨strL "Base, small", [digitsVal da], [strL "Cat"], none, [],
              some (strL "small")⟩,
            ⟨strL "Base, large", [digitsVal db], [strL "Cat"], none, [],
              some (strL "large")⟩]⟩ := by
  have htxt : strL "Cat\n• Base, small (" ++ (da ++ (strL "), large (" ++
      (db ++ strL ")"))) = strL "Cat\n• " ++ dualContent (strL "Base") da db := rfl
  rw [htxt, parse_dual_schema (strL "Base") da db 'B' (strL "ase") rfl (by decide)
    (by decide) (by decide) (by decide) hda hdane hda5 hdalt hdb hdbne hdb5 hdblt]
  rfl

theorem dual_size_split_roundtrip_witness :
    (∀ c ∈ strL "4098", isDig c = true) ∧ strL "4098" ≠ [] ∧
    (((strL "4098").length = 5 ∧ truncPfx (strL "4098") = true) → False) ∧
    digitsVal (strL "4098") < 4294967296 ∧
    (∀ c ∈ strL "4099", isDig c = true) ∧ strL "4099" ≠ [] ∧
    (((strL "4099").length = 5 ∧ truncPfx (strL "4099") = true) → False) ∧
    digitsVal (strL "4099") < 4294967296 ∧
    parse_plu_text (strL "Cat\n• Base, small (" ++ (strL "4098" ++ (strL "), large (" ++
        (strL "4099" ++ strL ")")))) =
      .ok ⟨[⟨strL "Base, small", [digitsVal (strL "4098")], [strL "Cat"], none, [],
              some (strL "small")⟩,
            ⟨strL "Base, large", [digitsVal (strL "4099")], [strL "Cat"], none, [],
              some (strL "large")⟩]⟩ :=
  ⟨by decide, by decide, by decide, by decide, by decide, by decide, by decide, by decide,
   dual_size_split_roundtrip (strL "4098") (strL "4099") (by decide) (by decide)
     (by decide) (by decide) (by decide) (by decide) (by decide) (by decide)⟩

/-- Claim C7: the item line "• Primary / Alt, small (A), large (B)" under top-level
category "Cat" yields two records whose alternate names are "Alt, small" and
"Alt, large" respectively (the size label is appended to the shared alternate
name). -/
theorem alt_name_propagation (da db : Str)
    (hda : ∀ c ∈ da, isDig c = true) (hdane : da ≠ [])
    (hda5 : (da.length = 5 ∧ truncPfx da = true) → False)
    (hdalt : digitsVal da < 4294967296)
    (hdb : ∀ c ∈ db, isDig c = true) (hdbne : db ≠ [])
    (hdb5 : (db.length = 5 ∧ truncPfx db = true) → False)
    (hdblt : digitsVal db < 4294967296) :
    parse_plu_text (strL "Cat\n• Primary / Alt, small (" ++ (da ++ (strL "), large (" ++
        (db ++ strL ")")))) =
      .ok ⟨[⟨strL "Primary, small", [digitsVal da], [strL "Cat"],
              some (strL "Alt, small"), [], some (strL "small")⟩,
            ⟨strL "Primary, large", [digitsVal db], [strL "Cat"],
              some (strL "Alt, large"), [], some (strL "large")⟩]⟩ := by
  have htxt : strL "Cat\n• Primary / Alt, small (" ++ (da ++ (strL "), large (" ++
      (db ++ strL ")"))) = strL "Cat\n• " ++ dualContent (strL "Primary / Alt") da db := rfl
  rw [htxt, parse_dual_schema (strL "Primary / Alt") da db 'P' (strL "rimary / Alt") rfl
    (by decide) (by decide) (by decide) (by decide) hda hdane hda5 hdalt hdb hdbne
    hdb5 hdblt]
  rfl

theorem alt_name_propagation_witness :
    (∀ c ∈ strL "3001", isDig c = true) ∧ strL "3001" ≠ [] ∧
    (((strL "3001").length = 5 ∧ truncPfx (strL "3001") = true) → False) ∧
    digitsVal (strL "3001") < 4294967296 ∧
    (∀ c ∈ strL "3290", isDig c = true) ∧ strL "3290" ≠ [] ∧
    (((strL "3290").length = 5 ∧ truncPfx (strL "3290") = true) → False) ∧
    digitsVal (strL "3290") < 4294967296 ∧
    parse_plu_text (strL "Cat\n• Primary / Alt, small (" ++ (strL "3001" ++
        (strL "), large (" ++ (strL "3290" ++ strL ")")))) =
      .ok ⟨[⟨strL "Primary, small", [digitsVal (strL "3001")], [strL "Cat"],
              some (strL "Alt, small"), [], some (strL "small")⟩,
            ⟨strL "Primary, large", [digitsVal (strL "3290")], [strL "Cat"],
              some (strL "Alt, large"), [], some (strL "large")⟩]⟩ :=
  ⟨by decide, by decide, by decide, by decide, by decide, by decide, by decide, by decide,
   alt_name_propagation (strL "3001") (strL "3290") (by decide) (by decide)
     (by decide) (by decide) (by decide) (by decide) (by decide) (by decide)⟩

end Plu
